import Mathlib

/-!
Verification of `Lib/sandbox/timeseries/addons/filters.py`.

The module provides two filters over possibly-masked numeric sequences:
`expmave` (exponential moving average with missing-value propagation) and
`running_window` / `running_mean` (centered windowed convolution).

Modelling conventions:
* numeric values are modelled as `ℚ` (the Python code computes with floats;
  every claim checked here is about the sequence of operations performed,
  not about rounding of IEEE arithmetic);
* a masked array is a list of values together with an optional boolean mask
  (`none` models the `nomask` sentinel, `true` means "missing");
* `scipy.signal.convolve(a, w)` (mode `full`) is modelled by `fullConv`;
* `scipy.signal.get_window` is external to the translated file; the window
  kernel is passed to the Lean functions as an explicit coefficient list,
  and the two named families the claims need (`boxcar`, `bartlett`) are
  modelled from the spec;
* Python slice and negative-index semantics are reproduced exactly, in
  particular `m[-k:] = True` with `k = 0` assigns the whole array.
-/

/-- A rank-1 masked array: data plus optional validity mask
(`none` models `nomask`; `true` in the mask means the entry is missing).
Invariant in the data model: a present mask has the shape of the data. -/
structure MaskedSeries where
  data : List ℚ
  mask : Option (List Bool)
deriving DecidableEq, Repr

/-- A rank-2 masked array, stored as a list of rows (numpy layout:
`len(data)` is the number of rows, columns are along the second axis). -/
structure MaskedSeries2 where
  data : List (List ℚ)
  mask : Option (List (List Bool))
deriving DecidableEq, Repr

/-- `maskedarray.getmaskarray` on a rank-1 array: the mask if present,
otherwise an all-`False` array of the data's shape. -/
def getmaskarray (s : MaskedSeries) : List Bool :=
  match s.mask with
  | none => List.replicate s.data.length false
  | some m => m

/-- `maskedarray.getmaskarray` on a rank-2 array. -/
def getmaskarray2 (s : MaskedSeries2) : List (List Bool) :=
  match s.mask with
  | none => s.data.map (fun r => List.replicate r.length false)
  | some m => m

/-- A boolean mask as the 0/1 numeric array numpy uses when a boolean
array enters a numeric convolution. -/
def maskToQ (m : List Bool) : List ℚ :=
  m.map (fun b => if b then 1 else 0)

/-- Coefficient `j` of the full linear convolution of `a` and `w`:
`(a * w)[j] = Σ_t a[t] · w[j-t]`, out-of-range reads contributing `0`. -/
def convCell (a w : List ℚ) (j : Nat) : ℚ :=
  ((List.range a.length).map
    (fun t => if t ≤ j then a.getD t 0 * w.getD (j - t) 0 else 0)).sum

/-- `scipy.signal.convolve(a, w)` in the default `full` mode: a linear
(non-circular) convolution of length `len(a) + len(w) - 1`. -/
def fullConv (a w : List ℚ) : List ℚ :=
  (List.range (a.length + w.length - 1)).map (convCell a w)

/-- Line 106 / 111 of `filters.py`: `(convolve(maskarray, window) > 0)[k:n+k]`,
the centered slice of the elementwise `> 0` test of the convolved 0/1 mask. -/
def convMaskSlice (mask : List Bool) (window : List ℚ) (k n : Nat) : List Bool :=
  (((fullConv (maskToQ mask) window).map (fun x => decide (0 < x))).drop k).take n

/-- Line 114 of `filters.py`: `data._mask[:k] = data._mask[-k:] = True` on a
rank-1 mask.  Python's `m[:k]` is the first `min(k, n)` entries and `m[-k:]`
is the last `min(k, n)` entries for `k ≥ 1` but the WHOLE array for `k = 0`
(since `-0 == 0`), which is reproduced here exactly. -/
def borderAssign (m : List Bool) (k : Nat) : List Bool :=
  (List.range m.length).map
    (fun i => if k = 0 ∨ i < k ∨ m.length ≤ i + k then true else m.getD i false)

/-- Line 114 of `filters.py` on a rank-2 mask: the first `k` and last `k`
ROWS are assigned `True` wholesale (all rows when `k = 0`). -/
def borderAssignRows (m : List (List Bool)) (k : Nat) : List (List Bool) :=
  (List.range m.length).map
    (fun i =>
      if k = 0 ∨ i < k ∨ m.length ≤ i + k then (m.getD i []).map (fun _ => true)
      else m.getD i [])

/-- The rank-1 branch of `running_window` (lines 98-106 and 114 of
`filters.py`): the input is copied, a zero mask is materialized if absent,
the data becomes the centered slice `[k : n+k]` of `convolve(data, window)`
divided by `float(window_size)`, the mask becomes the same slice of the
`> 0` test of `convolve(mask, window)`, and the border assignment of line
114 is applied afterwards.  The kernel `window` stands for the value
`get_window(window_type, window_size, fftbins=False)` computed on line 101. -/
def runningWindowMS (s : MaskedSeries) (window : List ℚ) (window_size : Nat) :
    MaskedSeries :=
  let m0 := getmaskarray s
  let n := s.data.length
  let k := window_size / 2
  ⟨(((fullConv s.data window).drop k).take n).map (fun x => x / (window_size : ℚ)),
   some (borderAssign (convMaskSlice m0 window k n) k)⟩

/-- Column `i` of a rank-2 numeric array stored as rows (`data._data[:,i]`). -/
def getCol (rows : List (List ℚ)) (i : Nat) : List ℚ :=
  rows.map (fun r => r.getD i 0)

/-- Column `i` of a rank-2 boolean array stored as rows (`data._mask[:,i]`). -/
def getColB (rows : List (List Bool)) (i : Nat) : List Bool :=
  rows.map (fun r => r.getD i false)

/-- Reassemble a list of `n`-element columns into `n` rows (the effect of
the per-column in-place writes of lines 108-111 of `filters.py`). -/
def rowsFromCols (cols : List (List ℚ)) (n : Nat) : List (List ℚ) :=
  (List.range n).map (fun r => cols.map (fun c => c.getD r 0))

/-- Reassemble boolean columns into rows. -/
def rowsFromColsB (cols : List (List Bool)) (n : Nat) : List (List Bool) :=
  (List.range n).map (fun r => cols.map (fun c => c.getD r false))

/-- The rank-2 branch of `running_window` (lines 107-111 and 114 of
`filters.py`): the identical 1D data/mask computation is applied to each of
the `data.shape[-1]` columns in place, with `n = len(data)` the number of
rows, and the border rows are forced afterwards. -/
def runningWindowMS2 (s : MaskedSeries2) (window : List ℚ) (window_size : Nat) :
    MaskedSeries2 :=
  let m0 := getmaskarray2 s
  let n := s.data.length
  let k := window_size / 2
  let ncols := (s.data.getD 0 []).length
  let dcols := (List.range ncols).map (fun i =>
    (((fullConv (getCol s.data i) window).drop k).take n).map
      (fun x => x / (window_size : ℚ)))
  let mcols := (List.range ncols).map (fun i =>
    convMaskSlice (getColB m0 i) window k n)
  ⟨rowsFromCols dcols n, some (borderAssignRows (rowsFromColsB mcols n) k)⟩

/-- Input to `running_window`, classified by rank as the Python code does on
lines 104-113: rank 1, rank 2, or any other rank (the `rN` constructor
carries `data.ndim` and the flattened cells, which the code never reads on
that branch). -/
inductive NDInput where
  | r1 : MaskedSeries → NDInput
  | r2 : MaskedSeries2 → NDInput
  | rN : Nat → List ℚ → NDInput
deriving DecidableEq, Repr

/-- `running_window(data, window_type, window_size)` (lines 66-115 of
`filters.py`), with the kernel `get_window(window_type, window_size)` passed
explicitly.  Rank-1 and rank-2 inputs are processed by the corresponding
branch; any other rank raises `ValueError("Data should be at most 2D")`. -/
def running_window (d : NDInput) (window : List ℚ) (window_size : Nat) :
    Except String NDInput :=
  match d with
  | .r1 s => .ok (.r1 (runningWindowMS s window window_size))
  | .r2 s => .ok (.r2 (runningWindowMS2 s window window_size))
  | .rN _ _ => .error "Data should be at most 2D"

/-- Modelled from the spec: `scipy.signal.get_window` is not part of the
translated source file; per the spec the `boxcar` window is "uniform
weighting" whose coefficients sum conceptually to the width, i.e. `width`
ones. -/
def boxcarWindow (width : Nat) : List ℚ :=
  List.replicate width 1

/-- Modelled from the spec: `scipy.signal.get_window` is not part of the
translated source file; the spec lists `bartlett` among the named window
families, and the standard discrete Bartlett window of width `N` is the
symmetric triangle `w[j] = 1 - |2j - (N-1)| / (N-1)` with zero endpoints
(e.g. `[0, 1, 0]` at width 3). -/
def bartlettWindow (width : Nat) : List ℚ :=
  (List.range width).map
    (fun j => 1 - |(2 * j : ℚ) - ((width : ℚ) - 1)| / ((width : ℚ) - 1))

/-- `running_mean(data, width)` (lines 117-131 of `filters.py`): pure
delegation to `running_window` with the boxcar window. -/
def running_mean (d : NDInput) (width : Nat) : Except String NDInput :=
  running_window d (boxcarWindow width) width

/-- The binary combinator `expmave_sub(a, b) = b + k*(a - b)` of line 51-52
of `filters.py`. -/
def expmaveSub (k a b : ℚ) : ℚ :=
  b + k * (a - b)

/-- Tail of `numpy.frompyfunc(f, 2, 1).accumulate`: given the accumulator so
far, emit `f acc y` for each further element, threading the result. -/
def pyAccumulateGo (f : ℚ → ℚ → ℚ) : ℚ → List ℚ → List ℚ
  | _, [] => []
  | acc, y :: ys => f acc y :: pyAccumulateGo f (f acc y) ys

/-- `numpy.frompyfunc(f, 2, 1).accumulate(l)`: `r[0] = l[0]`,
`r[i] = f(r[i-1], l[i])`. -/
def pyAccumulate (f : ℚ → ℚ → ℚ) : List ℚ → List ℚ
  | [] => []
  | x :: xs => x :: pyAccumulateGo f x xs

/-- `data.filled(0)`: the underlying data with masked entries replaced by 0
(maskedarray's `MaskedArray.filled` returns a plain `ndarray`). -/
def filled0 (s : MaskedSeries) : List ℚ :=
  match s.mask with
  | none => s.data
  | some m =>
      (List.range s.data.length).map
        (fun i => if m.getD i false then 0 else s.data.getD i 0)

/-- `expmave(data, n, tol)` (lines 32-63 of `filters.py`).

When the input carries no mask (`ismasked` false on line 45-48), the result
is the accumulate of `expmave_sub` over the data with `k = 2/(n+1)` and no
mask.

When the input carries a mask, line 55 REBINDS `data` to `data.filled(0)`,
a plain `ndarray`; line 59 then computes `getmask(data)` on that rebound
array, which is `nomask`, so `N.logical_not(nomask)` is a zero-dimensional
scalar and `N.frompyfunc(...).accumulate` on line 60 raises (a ufunc cannot
accumulate over a 0-d input).  The original mask never reaches the marker
computation; the branch fails with an exception, modelled as `none`. -/
def expmave (s : MaskedSeries) (n : Nat) (tol : ℚ) : Option MaskedSeries :=
  let k : ℚ := 2 / ((n : ℚ) + 1)
  let _ := tol
  match s.mask with
  | some _ => none
  | none => some ⟨pyAccumulate (expmaveSub k) s.data, none⟩

/-- Modelled from the spec: the documented missing-value propagation of
`expmave` (docstring lines 40-43 of `filters.py` and spec section 4.1),
which the code fails to implement.  The data scan runs over the 0-filled
data; an identical scan runs over a confidence sequence seeded `1.0` at
valid and `0.0` at missing positions, `leak[i] = 1 - conf[i]`, and exactly
the positions with `leak[i] > tol` are masked. -/
def expmaveSpec (s : MaskedSeries) (n : Nat) (tol : ℚ) : MaskedSeries :=
  let k : ℚ := 2 / ((n : ℚ) + 1)
  let m0 := getmaskarray s
  let acc := pyAccumulate (expmaveSub k) (filled0 s)
  let conf := pyAccumulate (expmaveSub k) (m0.map (fun b => if b then (0 : ℚ) else 1))
  let leak := conf.map (fun c => 1 - c)
  ⟨acc, some (leak.map (fun x => decide (tol < x)))⟩

/-- Column-stacking two equal-length rank-1 arrays into a rank-2 array of
two-entry rows (numpy `column_stack`). -/
def columnStack (a b : List ℚ) : List (List ℚ) :=
  List.zipWith (fun x y => [x, y]) a b

/-- Column-stacking two equal-length boolean masks. -/
def columnStackB (a b : List Bool) : List (List Bool) :=
  List.zipWith (fun x y => [x, y]) a b

/-- A store of array objects, used to state non-mutation (frame) properties:
an address is an index into the list, `heapAlloc` appends a fresh object. -/
structure Heap where
  arrays : List MaskedSeries
deriving Repr

/-- Allocate a new array object, returning its address. -/
def heapAlloc (h : Heap) (v : MaskedSeries) : Heap × Nat :=
  (⟨h.arrays ++ [v]⟩, h.arrays.length)

/-- Overwrite the array object at an address. -/
def heapWrite (h : Heap) (a : Nat) (v : MaskedSeries) : Heap :=
  ⟨h.arrays.set a v⟩

/-- Read the array object at an address. -/
def heapRead (h : Heap) (a : Nat) : MaskedSeries :=
  h.arrays.getD a ⟨[], none⟩

/-- The heap effect of `running_window` on a rank-1 argument living at
`addr`: line 98 (`marray(data, copy=True, subok=True)`) allocates a fresh
copy, and every subsequent in-place update (mask materialization on lines
99-100, the data/mask overwrites on lines 105-106, the border assignment on
line 114) targets that copy; they are collapsed into one write here because
only the written address matters for the frame property.  The caller's
address is never written. -/
def runningWindowProg (h : Heap) (addr : Nat) (window : List ℚ)
    (window_size : Nat) : Heap × Nat :=
  let s := heapRead h addr
  let (h1, a1) := heapAlloc h s
  let h2 := heapWrite h1 a1 (runningWindowMS s window window_size)
  (h2, a1)

/-- The heap effect of `expmave` at `addr`: the unmasked path only reads the
input (`accumulate` allocates its result); the masked path rebinds the local
`data` to `data.filled(0)` — a freshly allocated plain array (or, when the
mask has no `True` entry, the unmodified underlying buffer, which is then
only read) — computes the accumulate into another fresh array, and then
raises on line 60 (see `expmave`).  No path writes the caller's address. -/
def expmaveProg (h : Heap) (addr : Nat) (n : Nat) (tol : ℚ) :
    Heap × Option Nat :=
  let s := heapRead h addr
  match expmave s n tol with
  | none =>
      let (h1, _) := heapAlloc h ⟨filled0 s, none⟩
      (h1, none)
  | some r =>
      let (h1, a1) := heapAlloc h r
      (h1, some a1)

/-! ### Basic lemmas about the embedded operations -/

theorem fullConv_length (a w : List ℚ) :
    (fullConv a w).length = a.length + w.length - 1 := by
  simp [fullConv]

theorem fullConv_getElem (a w : List ℚ) (j : Nat)
    (h : j < (fullConv a w).length) :
    (fullConv a w)[j] = convCell a w j := by
  simp [fullConv]

theorem maskToQ_length (m : List Bool) : (maskToQ m).length = m.length := by
  simp [maskToQ]

theorem maskToQ_getD (m : List Bool) (t : Nat) :
    (maskToQ m).getD t 0 = if m.getD t false then 1 else 0 := by
  rcases Nat.lt_or_ge t m.length with hlt | hge
  · rw [List.getD_eq_getElem _ _ (by simpa [maskToQ_length] using hlt),
      List.getD_eq_getElem _ _ hlt]
    simp [maskToQ]
  · rw [List.getD_eq_getElem?_getD, List.getElem?_eq_none
      (by simpa [maskToQ_length] using hge),
      List.getD_eq_getElem?_getD, List.getElem?_eq_none hge]
    simp

theorem maskToQ_getD_nonneg (m : List Bool) (t : Nat) :
    0 ≤ (maskToQ m).getD t 0 := by
  rw [maskToQ_getD]
  split <;> norm_num

theorem borderAssign_length (m : List Bool) (k : Nat) :
    (borderAssign m k).length = m.length := by
  simp [borderAssign]

theorem borderAssign_getElem (m : List Bool) (k i : Nat)
    (h : i < (borderAssign m k).length) :
    (borderAssign m k)[i] =
      if k = 0 ∨ i < k ∨ m.length ≤ i + k then true else m.getD i false := by
  simp [borderAssign]

theorem convMaskSlice_length (m : List Bool) (w : List ℚ) (k n : Nat)
    (h : k + n ≤ m.length + w.length - 1) :
    (convMaskSlice m w k n).length = n := by
  simp only [convMaskSlice, List.length_take, List.length_drop,
    List.length_map, fullConv_length, maskToQ_length]
  omega

theorem convMaskSlice_getElem (m : List Bool) (w : List ℚ) (k n p : Nat)
    (h : p < (convMaskSlice m w k n).length) :
    (convMaskSlice m w k n)[p] =
      decide (0 < convCell (maskToQ m) w (k + p)) := by
  have hcl : k + p < (fullConv (maskToQ m) w).length := by
    have := h
    simp only [convMaskSlice, List.length_take, List.length_drop,
      List.length_map] at this
    omega
  simp only [convMaskSlice, List.getElem_take, List.getElem_drop,
    List.getElem_map]
  rw [fullConv_getElem (maskToQ m) w (k + p) hcl]

theorem convCell_nonneg (m : List Bool) (w : List ℚ)
    (hw : ∀ c ∈ w, 0 ≤ c) (j : Nat) :
    0 ≤ convCell (maskToQ m) w j := by
  apply List.sum_nonneg
  intro x hx
  rcases List.mem_map.1 hx with ⟨t, -, rfl⟩
  split
  · apply mul_nonneg (maskToQ_getD_nonneg m t)
    rcases Nat.lt_or_ge (j - t) w.length with hlt | hge
    · rw [List.getD_eq_getElem _ _ hlt]
      exact hw _ (List.getElem_mem hlt)
    · rw [List.getD_eq_getElem?_getD, List.getElem?_eq_none hge]
      norm_num
  · exact le_refl 0

theorem convCell_pos (m : List Bool) (w : List ℚ)
    (hw : ∀ c ∈ w, 0 < c) (t j : Nat) (ht : t < m.length)
    (hmt : m.getD t false = true) (h1 : t ≤ j) (h2 : j < t + w.length) :
    0 < convCell (maskToQ m) w j := by
  have hjt : j - t < w.length := by omega
  have hterm : (0 : ℚ) <
      (if t ≤ j then (maskToQ m).getD t 0 * w.getD (j - t) 0 else 0) := by
    rw [if_pos h1, maskToQ_getD, hmt, if_pos rfl, one_mul,
      List.getD_eq_getElem _ _ hjt]
    exact hw _ (List.getElem_mem hjt)
  have hmem : (if t ≤ j then (maskToQ m).getD t 0 * w.getD (j - t) 0 else 0) ∈
      (List.range (maskToQ m).length).map
        (fun t => if t ≤ j then (maskToQ m).getD t 0 * w.getD (j - t) 0 else 0) :=
    List.mem_map.2 ⟨t, List.mem_range.2 (by simpa [maskToQ_length] using ht), rfl⟩
  have hnn : ∀ x ∈ (List.range (maskToQ m).length).map
      (fun t => if t ≤ j then (maskToQ m).getD t 0 * w.getD (j - t) 0 else 0),
      (0:ℚ) ≤ x := by
    intro x hx
    rcases List.mem_map.1 hx with ⟨u, -, rfl⟩
    split
    · apply mul_nonneg (maskToQ_getD_nonneg m u)
      rcases Nat.lt_or_ge (j - u) w.length with hlt | hge
      · rw [List.getD_eq_getElem _ _ hlt]
        exact le_of_lt (hw _ (List.getElem_mem hlt))
      · rw [List.getD_eq_getElem?_getD, List.getElem?_eq_none hge]
        norm_num
    · exact le_refl 0
  exact lt_of_lt_of_le hterm (List.single_le_sum hnn _ hmem)

theorem convCell_allFalse (n : Nat) (w : List ℚ) (j : Nat) :
    convCell (maskToQ (List.replicate n false)) w j = 0 := by
  apply List.sum_eq_zero
  intro x hx
  rcases List.mem_map.1 hx with ⟨t, -, rfl⟩
  split
  · rw [maskToQ_getD]
    rcases Nat.lt_or_ge t n with hlt | hge
    · rw [List.getD_eq_getElem _ _ (by simpa using hlt)]
      simp
    · rw [List.getD_eq_getElem?_getD, List.getElem?_eq_none (by simpa using hge)]
      simp
  · rfl

theorem pyAccumulateGo_length (f : ℚ → ℚ → ℚ) (acc : ℚ) (l : List ℚ) :
    (pyAccumulateGo f acc l).length = l.length := by
  induction l generalizing acc with
  | nil => rfl
  | cons y ys ih => simp [pyAccumulateGo, ih]

theorem pyAccumulate_length (f : ℚ → ℚ → ℚ) (l : List ℚ) :
    (pyAccumulate f l).length = l.length := by
  cases l with
  | nil => rfl
  | cons x xs => simp [pyAccumulate, pyAccumulateGo_length]

theorem pyAccumulateGo_getD_zero (f : ℚ → ℚ → ℚ) (acc : ℚ) (l : List ℚ)
    (h : 0 < l.length) :
    (pyAccumulateGo f acc l).getD 0 0 = f acc (l.getD 0 0) := by
  cases l with
  | nil => simp at h
  | cons y ys => simp [pyAccumulateGo]

theorem pyAccumulateGo_getD_succ (f : ℚ → ℚ → ℚ) (l : List ℚ) :
    ∀ (acc : ℚ) (t : Nat), t + 1 < l.length →
      (pyAccumulateGo f acc l).getD (t + 1) 0 =
        f ((pyAccumulateGo f acc l).getD t 0) (l.getD (t + 1) 0) := by
  induction l with
  | nil => intro acc t h; simp at h
  | cons y ys ih =>
    intro acc t h
    cases t with
    | zero =>
      have hys : 0 < ys.length := by simpa using h
      simp only [pyAccumulateGo, List.getD_cons_succ, List.getD_cons_zero]
      exact pyAccumulateGo_getD_zero f (f acc y) ys hys
    | succ s =>
      have hs : s + 1 < ys.length := by simpa using h
      simp only [pyAccumulateGo, List.getD_cons_succ]
      exact ih (f acc y) s hs

theorem pyAccumulate_getD_zero (f : ℚ → ℚ → ℚ) (l : List ℚ)
    (h : 0 < l.length) :
    (pyAccumulate f l).getD 0 0 = l.getD 0 0 := by
  cases l with
  | nil => simp at h
  | cons x xs => simp [pyAccumulate]

theorem pyAccumulate_getD_succ (f : ℚ → ℚ → ℚ) (l : List ℚ) (t : Nat)
    (h : t + 1 < l.length) :
    (pyAccumulate f l).getD (t + 1) 0 =
      f ((pyAccumulate f l).getD t 0) (l.getD (t + 1) 0) := by
  cases l with
  | nil => simp at h
  | cons x xs =>
    cases t with
    | zero =>
      have hxs : 0 < xs.length := by simpa using h
      simp only [pyAccumulate, List.getD_cons_succ, List.getD_cons_zero]
      exact pyAccumulateGo_getD_zero f x xs hxs
    | succ s =>
      have hs : s + 1 < xs.length := by simpa using h
      simp only [pyAccumulate, List.getD_cons_succ]
      exact pyAccumulateGo_getD_succ f xs x s hs

theorem getmaskarray_length (s : MaskedSeries)
    (hm : ∀ m, s.mask = some m → m.length = s.data.length) :
    (getmaskarray s).length = s.data.length := by
  cases h : s.mask with
  | none => simp [getmaskarray, h]
  | some m => simp [getmaskarray, h, hm m h]

theorem heapRead_write_ne (h : Heap) (a b : Nat) (v : MaskedSeries)
    (hne : a ≠ b) :
    heapRead (heapWrite h a v) b = heapRead h b := by
  simp [heapRead, heapWrite, List.getD_eq_getElem?_getD,
    List.getElem?_set_ne hne]

theorem heapRead_alloc_lt (h : Heap) (v : MaskedSeries) (b : Nat)
    (hb : b < h.arrays.length) :
    heapRead ((heapAlloc h v).1) b = heapRead h b := by
  simp [heapRead, heapAlloc, List.getD_eq_getElem?_getD,
    List.getElem?_append, hb]

/-! ### Claim theorems -/

/-- C8: `running_window` on an input of rank greater than 2 fails
immediately with the ValueError message "Data should be at most 2D" and
produces no output; no computation is performed on the input's cells (the
branch never reads them), and the caller's input is left unchanged (see the
frame theorem for C9). -/
theorem running_window_rank_gt_two_errors (ndim : Nat) (cells : List ℚ)
    (window : List ℚ) (window_size : Nat) (_h : 3 ≤ ndim) :
    running_window (.rN ndim cells) window window_size =
      .error "Data should be at most 2D" := rfl

theorem running_window_rank_gt_two_errors_witness :
    3 ≤ 3 ∧ running_window (.rN 3 [1, 2]) [1] 1 =
      .error "Data should be at most 2D" :=
  ⟨by decide, running_window_rank_gt_two_errors 3 [1, 2] [1] 1 (by decide)⟩

/-- C4: on rank-1 input the numeric values returned by `running_window` are
the centered slice `[k : n+k]` of the full convolution of the underlying
data with the kernel, divided by `float(window_size)` — whatever the kernel;
in particular for the kernel `[1, 2, 1]` whose coefficient sum is 4 and
`window_size = 3`, the divisor used is 3, as the concrete value
`[3, 4, 3] = conv([3,3,3],[1,2,1])[1:4] / 3` shows. -/
theorem running_window_divides_by_window_size :
    (∀ (s : MaskedSeries) (window : List ℚ) (window_size : Nat),
      running_window (.r1 s) window window_size =
        .ok (.r1 (runningWindowMS s window window_size)) ∧
      (runningWindowMS s window window_size).data =
        (((fullConv s.data window).drop (window_size / 2)).take
          s.data.length).map (fun x => x / (window_size : ℚ))) ∧
    ([(1:ℚ), 2, 1].sum = 4 ∧ (4:ℚ) ≠ 3 ∧
      (runningWindowMS ⟨[3, 3, 3], none⟩ [1, 2, 1] 3).data = [3, 4, 3]) := by
  refine ⟨fun s window window_size => ⟨rfl, rfl⟩, by norm_num, by norm_num, ?_⟩
  norm_num [runningWindowMS, getmaskarray, fullConv, convCell,
    List.range_succ, List.replicate_succ]

/-- C1: code bug.  On a masked input with a missing value (here `[1, 2]`
with position 0 missing, `n = 2`, `tol = 1/2`), `expmave` never runs the
confidence scan over the true mask: line 55 rebinds `data` to
`data.filled(0)` (a plain `ndarray`), so line 59's `getmask(data)` is
`nomask` and the zero-dimensional accumulate on line 60 raises (modelled as
`none`).  The documented behaviour, `expmaveSpec` (modelled from the spec),
runs the scan over the confidence sequence seeded `[0, 1]` and masks
position 0, whose leak is `1 > tol` (indeed it masks both positions, since
`leak = [1, 2/3]` and `tol = 1/2`). -/
theorem expmave_missing_at_zero_bug :
    expmave ⟨[1, 2], some [true, false]⟩ 2 (1/2) = none ∧
      expmaveSpec ⟨[1, 2], some [true, false]⟩ 2 (1/2) =
        ⟨[0, 2/3], some [true, true]⟩ := by
  refine ⟨rfl, ?_⟩
  norm_num [expmaveSpec, getmaskarray, filled0, pyAccumulate, pyAccumulateGo,
    expmaveSub, List.range_succ]

/-- C9: neither operation mutates its argument.  In the heap model,
`running_window` copies the input on line 98 and every later in-place
update targets the copy, and `expmave` only reads its argument (`filled`
and `accumulate` allocate fresh arrays); on every path, including the
exception path of `expmave` on masked input, the array object at the
caller's address is unchanged and the result is a freshly allocated
object. -/
theorem filters_do_not_mutate_input (h : Heap) (addr : Nat)
    (window : List ℚ) (ws n : Nat) (tol : ℚ)
    (ha : addr < h.arrays.length) :
    heapRead ((runningWindowProg h addr window ws).1) addr = heapRead h addr ∧
      heapRead ((expmaveProg h addr n tol).1) addr = heapRead h addr := by
  constructor
  · show heapRead (heapWrite ((heapAlloc h (heapRead h addr)).1)
      h.arrays.length _) addr = heapRead h addr
    rw [heapRead_write_ne _ _ _ _ (by omega)]
    exact heapRead_alloc_lt h _ addr ha
  · unfold expmaveProg
    cases hE : expmave (heapRead h addr) n tol with
    | none => simpa [hE] using heapRead_alloc_lt h _ addr ha
    | some r => simpa [hE] using heapRead_alloc_lt h _ addr ha

theorem filters_do_not_mutate_input_witness :
    (0 : Nat) < 1 ∧
      (heapRead ((runningWindowProg ⟨[⟨[1, 2], none⟩]⟩ 0 [1, 1] 2).1) 0 =
          heapRead ⟨[⟨[1, 2], none⟩]⟩ 0 ∧
        heapRead ((expmaveProg ⟨[⟨[1, 2], none⟩]⟩ 0 3 (1/2)).1) 0 =
          heapRead ⟨[⟨[1, 2], none⟩]⟩ 0) :=
  ⟨by decide,
    filters_do_not_mutate_input ⟨[⟨[1, 2], none⟩]⟩ 0 [1, 1] 2 3 (1/2)
      (by simp)⟩

theorem map_const_true {α : Type} (l : List α) :
    l.map (fun _ => true) = List.replicate l.length true := by
  induction l with
  | nil => rfl
  | cons x xs ih => simp [ih, List.replicate_succ]

theorem borderAssign_zero (m : List Bool) :
    borderAssign m 0 = List.replicate m.length true := by
  apply List.ext_getElem
  · simp [borderAssign]
  · intro i h1 h2
    simp [borderAssign]

theorem rowsFromColsB_length (cols : List (List Bool)) (n : Nat) :
    (rowsFromColsB cols n).length = n := by
  simp [rowsFromColsB]

theorem borderAssignRows_zero_rowsFromColsB (cols : List (List Bool))
    (n : Nat) :
    borderAssignRows (rowsFromColsB cols n) 0 =
      List.replicate n (List.replicate cols.length true) := by
  apply List.ext_getElem
  · simp [borderAssignRows, rowsFromColsB]
  · intro i h1 h2
    have hi : i < n := by simpa [borderAssignRows, rowsFromColsB] using h1
    simp only [borderAssignRows, List.getElem_map, List.getElem_range,
      List.getElem_replicate]
    rw [if_pos (Or.inl trivial),
      List.getD_eq_getElem _ _ (by simpa [rowsFromColsB_length] using hi)]
    simp only [rowsFromColsB, List.getElem_map, List.getElem_range,
      List.map_map]
    exact map_const_true cols

/-- C10: with `window_size = 1` (so `k = 0`), the border assignment of line
114, `data._mask[-0:] = True`, covers the whole array (Python's `-0` is
`0`), so every output position of `running_window` is marked missing — on
rank-1 and rank-2 inputs alike, with or without missing values — and hence
the same holds for `running_mean` (concrete instance included). -/
theorem running_window_size_one_all_masked (s : MaskedSeries)
    (s2 : MaskedSeries2) (window : List ℚ)
    (hm : ∀ m, s.mask = some m → m.length = s.data.length)
    (hw : window.length = 1) :
    (runningWindowMS s window 1).mask =
        some (List.replicate s.data.length true) ∧
      (runningWindowMS2 s2 window 1).mask =
        some (List.replicate s2.data.length
          (List.replicate (s2.data.getD 0 []).length true)) ∧
      running_mean (.r1 ⟨[5, 6, 7], none⟩) 1 =
        .ok (.r1 ⟨[5, 6, 7], some [true, true, true]⟩) := by
  refine ⟨?_, ?_, ?_⟩
  · show some (borderAssign
      (convMaskSlice (getmaskarray s) window (1/2) s.data.length) (1/2)) = _
    rw [show (1 : Nat)/2 = 0 from rfl, borderAssign_zero,
      convMaskSlice_length _ _ _ _ (by rw [getmaskarray_length s hm, hw]; omega)]
  · show some (borderAssignRows (rowsFromColsB _ s2.data.length) (1/2)) = _
    rw [show (1 : Nat)/2 = 0 from rfl, borderAssignRows_zero_rowsFromColsB]
    simp
  · norm_num [running_mean, running_window, runningWindowMS, boxcarWindow,
      getmaskarray, convMaskSlice, maskToQ, borderAssign, fullConv, convCell,
      List.range_succ, List.replicate_succ]

theorem running_window_size_one_all_masked_witness :
    (runningWindowMS ⟨[1, 2], some [false, true]⟩ [2] 1).mask =
        some (List.replicate 2 true) ∧
      (runningWindowMS2 ⟨[[1], [2]], none⟩ [2] 1).mask =
        some (List.replicate 2 (List.replicate 1 true)) ∧
      running_mean (.r1 ⟨[5, 6, 7], none⟩) 1 =
        .ok (.r1 ⟨[5, 6, 7], some [true, true, true]⟩) :=
  running_window_size_one_all_masked ⟨[1, 2], some [false, true]⟩
    ⟨[[1], [2]], none⟩ [2] (by intro m hm; cases hm; rfl) rfl

theorem borderAssignRows_length (m : List (List Bool)) (k : Nat) :
    (borderAssignRows m k).length = m.length := by
  simp [borderAssignRows]

theorem borderAssignRows_getElem (m : List (List Bool)) (k i : Nat)
    (h : i < (borderAssignRows m k).length) :
    (borderAssignRows m k)[i] =
      if k = 0 ∨ i < k ∨ m.length ≤ i + k then (m.getD i []).map (fun _ => true)
      else m.getD i [] := by
  simp [borderAssignRows]

/-- C6: the result of `running_window` always carries a freshly allocated
missing mask (the mask field is `some _` even when the input had none: the
copy's mask is materialized on lines 99-100 and overwritten on line 106/111),
its shape matches the input, the first `k` and last `k` output positions
(rows, for rank 2) are marked missing unconditionally by line 114, and that
border assignment is applied after — i.e. never clears — the
convolution-derived mask. -/
theorem running_window_mask_always_present (s : MaskedSeries)
    (s2 : MaskedSeries2) (window : List ℚ) (ws : Nat)
    (hm : ∀ m, s.mask = some m → m.length = s.data.length)
    (hw : window.length = ws) (h1 : 1 ≤ ws) :
    (∃ M, (runningWindowMS s window ws).mask = some M ∧
      M.length = s.data.length ∧
      (∀ p, p < s.data.length →
        (p < ws / 2 ∨ s.data.length ≤ p + ws / 2) → M.getD p false = true) ∧
      (∀ p, p < s.data.length →
        (convMaskSlice (getmaskarray s) window (ws / 2)
          s.data.length).getD p false = true →
        M.getD p false = true)) ∧
    (∃ M2, (runningWindowMS2 s2 window ws).mask = some M2 ∧
      M2.length = s2.data.length ∧
      (∀ i, i < s2.data.length →
        (i < ws / 2 ∨ s2.data.length ≤ i + ws / 2) →
        ∀ b ∈ M2.getD i [], b = true)) := by
  have hXlen : (convMaskSlice (getmaskarray s) window (ws / 2)
      s.data.length).length = s.data.length := by
    apply convMaskSlice_length
    rw [getmaskarray_length s hm, hw]
    omega
  constructor
  · refine ⟨borderAssign (convMaskSlice (getmaskarray s) window (ws / 2)
      s.data.length) (ws / 2), rfl, ?_, ?_, ?_⟩
    · rw [borderAssign_length, hXlen]
    · intro p hp hside
      rw [List.getD_eq_getElem _ _ (by rw [borderAssign_length, hXlen]; omega),
        borderAssign_getElem _ _ _ (by rw [borderAssign_length, hXlen]; omega)]
      rw [if_pos (by rw [hXlen]; tauto)]
    · intro p hp hconv
      rw [List.getD_eq_getElem _ _ (by rw [borderAssign_length, hXlen]; omega),
        borderAssign_getElem _ _ _ (by rw [borderAssign_length, hXlen]; omega)]
      split
      · rfl
      · exact hconv
  · refine ⟨borderAssignRows (rowsFromColsB _ s2.data.length) (ws / 2),
      rfl, ?_, ?_⟩
    · rw [borderAssignRows_length, rowsFromColsB_length]
    · intro i hi hside b hb
      rw [List.getD_eq_getElem _ _
          (by rw [borderAssignRows_length, rowsFromColsB_length]; omega),
        borderAssignRows_getElem _ _ _
          (by rw [borderAssignRows_length, rowsFromColsB_length]; omega)]
        at hb
      rw [if_pos (by rw [rowsFromColsB_length]; tauto)] at hb
      rcases List.mem_map.1 hb with ⟨-, -, rfl⟩
      rfl

theorem running_window_mask_always_present_witness :
    (∃ M, (runningWindowMS ⟨[1, 2, 3], none⟩ [1, 1, 1] 3).mask = some M ∧
      M.length = 3 ∧
      (∀ p, p < 3 → (p < 3 / 2 ∨ 3 ≤ p + 3 / 2) → M.getD p false = true) ∧
      (∀ p, p < 3 →
        (convMaskSlice (getmaskarray ⟨[1, 2, 3], none⟩) [1, 1, 1] (3 / 2)
          3).getD p false = true →
        M.getD p false = true)) ∧
    (∃ M2, (runningWindowMS2 ⟨[[1, 2], [3, 4], [5, 6]], none⟩
        [1, 1, 1] 3).mask = some M2 ∧
      M2.length = 3 ∧
      (∀ i, i < 3 → (i < 3 / 2 ∨ 3 ≤ i + 3 / 2) →
        ∀ b ∈ M2.getD i [], b = true)) :=
  running_window_mask_always_present ⟨[1, 2, 3], none⟩
    ⟨[[1, 2], [3, 4], [5, 6]], none⟩ [1, 1, 1] 3
    (by intro m hm; cases hm) rfl (by omega)

/-- C5 counterexample: the claim fails on the code in two ways.  (1) An
input with a present all-`False` mask has no missing values, yet `expmave`
takes the masked branch (`ismasked` tests `_mask is not nomask`) and raises
instead of returning the recursion (modelled as `none`).  (2) The actual
accumulate output for `data = [1,2,3,4,5]`, `n = 2` (`k = 2/3`) is
`[1, 4/3, 17/9, 70/27, 275/81]` ≈ [1, 1.333, 1.889, 2.593, 3.395]: its
second entry rounds to 1.333, not the claimed 1.667 (the claimed values
satisfy the conventional EMA recursion with weight `k` on the NEW
observation, not the recursion `acc[t] = data[t] + k*(acc[t-1]-data[t])`
that both the claim and the code state). -/
theorem expmave_no_missing_claim_fails :
    expmave ⟨[1, 2], some [false, false]⟩ 2 (1/1000000) = none ∧
      expmave ⟨[1, 2, 3, 4, 5], none⟩ 2 (1/1000000) =
        some ⟨[1, 4/3, 17/9, 70/27, 275/81], none⟩ ∧
      round ((1000 : ℚ) * (4/3)) = 1333 := by
  refine ⟨rfl, ?_, ?_⟩
  · norm_num [expmave, pyAccumulate, pyAccumulateGo, expmaveSub]
  · norm_num [round_eq]

/-- C5 (amended): for every input carrying NO mask (`nomask`, hence no
missing values) and every positive `n`, `expmave` returns exactly the
prefix-scan recursion `acc[0] = data[0]`,
`acc[t] = data[t] + k*(acc[t-1] - data[t])` with `k = 2/(n+1)`, and `nomask`
(all valid).  The correct concrete scenario is
`expmave([1,2,3,4,5], 2) = [1, 4/3, 17/9, 70/27, 275/81]`
≈ [1, 1.333, 1.889, 2.593, 3.395], proved in the counterexample theorem. -/
theorem expmave_unmasked_recursion (data : List ℚ) (n : Nat) (tol : ℚ)
    (hn : 0 < n) :
    ∃ r, expmave ⟨data, none⟩ n tol = some ⟨r, none⟩ ∧
      r.length = data.length ∧
      (0 < data.length → r.getD 0 0 = data.getD 0 0) ∧
      (∀ t, t + 1 < data.length →
        r.getD (t + 1) 0 = data.getD (t + 1) 0 +
          (2 / ((n : ℚ) + 1)) * (r.getD t 0 - data.getD (t + 1) 0)) := by
  have _ := hn
  refine ⟨pyAccumulate (expmaveSub (2 / ((n : ℚ) + 1))) data, rfl,
    pyAccumulate_length _ _, fun h => pyAccumulate_getD_zero _ _ h, ?_⟩
  intro t ht
  rw [pyAccumulate_getD_succ _ _ t ht]
  simp [expmaveSub]

theorem expmave_unmasked_recursion_witness :
    (0 : Nat) < 2 ∧
      ∃ r, expmave ⟨[1, 2, 3, 4, 5], none⟩ 2 (1/1000000) = some ⟨r, none⟩ ∧
        r.length = ([1, 2, 3, 4, 5] : List ℚ).length ∧
        (0 < ([1, 2, 3, 4, 5] : List ℚ).length →
          r.getD 0 0 = ([1, 2, 3, 4, 5] : List ℚ).getD 0 0) ∧
        (∀ t, t + 1 < ([1, 2, 3, 4, 5] : List ℚ).length →
          r.getD (t + 1) 0 = ([1, 2, 3, 4, 5] : List ℚ).getD (t + 1) 0 +
            (2 / (((2 : Nat) : ℚ) + 1)) *
              (r.getD t 0 - ([1, 2, 3, 4, 5] : List ℚ).getD (t + 1) 0)) :=
  ⟨by decide, expmave_unmasked_recursion [1, 2, 3, 4, 5] 2 (1/1000000)
    (by decide)⟩

theorem convMaskSlice_allFalse (nm : Nat) (w : List ℚ) (k n : Nat)
    (h : k + n ≤ nm + w.length - 1) :
    convMaskSlice (List.replicate nm false) w k n = List.replicate n false := by
  apply List.ext_getElem
  · rw [convMaskSlice_length _ _ _ _ (by simpa using h)]
    simp
  · intro p h1 h2
    have hp : p < n := by simpa using h2
    rw [convMaskSlice_getElem _ _ _ _ _ h1, convCell_allFalse]
    simp

theorem borderAssign_replicate_false (n k : Nat) (hk : 1 ≤ k)
    (hn : 2 * k ≤ n) :
    borderAssign (List.replicate n false) k =
      List.replicate k true ++ List.replicate (n - 2 * k) false ++
        List.replicate k true := by
  apply List.ext_getElem
  · simp [borderAssign_length]
    omega
  · intro i h1 h2
    have hi : i < n := by simpa [borderAssign_length] using h1
    rw [borderAssign_getElem _ _ _ (by simp [borderAssign_length]; omega)]
    by_cases hik : i < k
    · rw [if_pos (by simp; omega)]
      rw [List.getElem_append_left (by simp; omega),
        List.getElem_append_left (by simp; omega)]
      simp
    · by_cases hir : n ≤ i + k
      · rw [if_pos (by simp; omega)]
        rw [List.getElem_append_right (by simp; omega)]
        simp
      · rw [if_neg (by simp; omega)]
        rw [List.getElem_append_left (by simp; omega),
          List.getElem_append_right (by simpa using hik)]
        simp

/-- C3 counterexample: for width `w = 1` the claim demands exactly
`2*(1//2) = 0` masked positions, but `running_mean([1,1,1,1,1], 1)` masks
all five positions: with `k = 0`, line 114's `data._mask[-0:] = True` is a
whole-array assignment in Python. -/
theorem running_mean_width_one_masks_everything :
    running_mean (.r1 ⟨[1, 1, 1, 1, 1], none⟩) 1 =
        .ok (.r1 ⟨[1, 1, 1, 1, 1], some [true, true, true, true, true]⟩) ∧
      2 * (1 / 2) = 0 := by
  refine ⟨?_, rfl⟩
  norm_num [running_mean, running_window, runningWindowMS, boxcarWindow,
    getmaskarray, convMaskSlice, maskToQ, borderAssign, fullConv, convCell,
    List.range_succ, List.replicate_succ]

/-- C3 (amended): for every all-valid (maskless) rank-1 input of length
`m ≥ 2*(w//2)` and every width `w ≥ 2`, the mask of `running_mean(data, w)`
is exactly `w//2` leading `True`s, `m - 2*(w//2)` interior `False`s and
`w//2` trailing `True`s — i.e. exactly `2*(w//2)` masked positions, the
first and last `w//2`, all interior positions valid.  The scenario
`running_mean([1,1,1,1,1], 3) = [missing, 1.0, 1.0, 1.0, missing]` (with
underlying border values 2/3) is included.  For `w = 1` every position is
masked (see the counterexample), and for `m < 2*(w//2)` the two border
runs overlap, so fewer than `2*(w//2)` positions exist to be masked. -/
theorem running_mean_allvalid_border_mask (data : List ℚ) (w : Nat)
    (hw2 : 2 ≤ w) (hlen : 2 * (w / 2) ≤ data.length) :
    (runningWindowMS ⟨data, none⟩ (boxcarWindow w) w).mask =
        some (List.replicate (w / 2) true ++
          List.replicate (data.length - 2 * (w / 2)) false ++
          List.replicate (w / 2) true) ∧
      running_mean (.r1 ⟨[1, 1, 1, 1, 1], none⟩) 3 =
        .ok (.r1 ⟨[2/3, 1, 1, 1, 2/3],
          some [true, false, false, false, true]⟩) := by
  constructor
  · show some (borderAssign (convMaskSlice (getmaskarray ⟨data, none⟩)
      (boxcarWindow w) (w / 2) data.length) (w / 2)) = _
    rw [show getmaskarray ⟨data, none⟩ = List.replicate data.length false
        from rfl,
      convMaskSlice_allFalse _ _ _ _
        (by simp [boxcarWindow]; omega),
      borderAssign_replicate_false data.length (w / 2) (by omega) hlen]
  · norm_num [running_mean, running_window, runningWindowMS, boxcarWindow,
      getmaskarray, convMaskSlice, maskToQ, borderAssign, fullConv, convCell,
      List.range_succ, List.replicate_succ]

theorem running_mean_allvalid_border_mask_witness :
    (2 ≤ 3 ∧ 2 * (3 / 2) ≤ ([1, 2, 3, 4, 5] : List ℚ).length) ∧
      ((runningWindowMS ⟨[1, 2, 3, 4, 5], none⟩ (boxcarWindow 3) 3).mask =
          some (List.replicate (3 / 2) true ++
            List.replicate (([1, 2, 3, 4, 5] : List ℚ).length - 2 * (3 / 2))
              false ++ List.replicate (3 / 2) true) ∧
        running_mean (.r1 ⟨[1, 1, 1, 1, 1], none⟩) 3 =
          .ok (.r1 ⟨[2/3, 1, 1, 1, 2/3],
            some [true, false, false, false, true]⟩)) :=
  ⟨⟨by decide, by decide⟩,
    running_mean_allvalid_border_mask [1, 2, 3, 4, 5] 3 (by decide) (by decide)⟩

/-- C2 counterexample: three concrete failures of the claim as frozen.
(1) "masked exactly when the convolved-mask centered slice is > 0 there":
with boxcar width 3 on the all-valid input [1,1,1,1,1], position 0 is
masked although the convolved-mask slice is all `false` (the unconditional
border assignment of line 114 also masks).  (2) "contiguous missing run
covering at least [i-k, i+k]": with even width 2 (boxcar, k = 1) and a
single missing input at i = 2, position 3 = i + k is NOT masked — the
input support of output p is [p+k+1-ws, p+k], asymmetric for even widths.
(3) "any output position whose length-window_size window overlaps a missing
input position is marked missing": with the bartlett width-3 kernel
[0, 1, 0] and a single missing input at i = 1, the window {1, 2, 3} of
output position 2 overlaps the missing input, yet position 2 is NOT masked,
because the kernel's zero end coefficients contribute nothing to the
convolution. -/
theorem running_window_missing_propagation_claim_fails :
    (running_window (.r1 ⟨[1, 1, 1, 1, 1], none⟩) (boxcarWindow 3) 3 =
        .ok (.r1 ⟨[2/3, 1, 1, 1, 2/3],
          some [true, false, false, false, true]⟩) ∧
      convMaskSlice (List.replicate 5 false) (boxcarWindow 3) 1 5 =
        [false, false, false, false, false]) ∧
    running_window (.r1 ⟨[1, 1, 1, 1, 1],
        some [false, false, true, false, false]⟩) (boxcarWindow 2) 2 =
      .ok (.r1 ⟨[1, 1, 1, 1, 1/2],
        some [true, true, true, false, true]⟩) ∧
    (bartlettWindow 3 = [0, 1, 0] ∧
      running_window (.r1 ⟨[1, 1, 1, 1, 1],
          some [false, true, false, false, false]⟩) (bartlettWindow 3) 3 =
        .ok (.r1 ⟨[1/3, 1/3, 1/3, 1/3, 1/3],
          some [true, true, false, false, true]⟩)) := by
  refine ⟨⟨?_, ?_⟩, ?_, ?_, ?_⟩ <;>
    norm_num [running_window, runningWindowMS, boxcarWindow, bartlettWindow,
      getmaskarray, convMaskSlice, maskToQ, borderAssign, fullConv, convCell,
      List.range_succ, List.replicate_succ]

/-- C2 (amended): for kernels whose coefficients are ALL POSITIVE (true of
boxcar; false e.g. of bartlett, whose end coefficients are zero), the
rank-1 `running_window` mask satisfies: a position `p` is masked exactly
when the centered slice of `convolve(mask01, window) > 0` is true at `p` OR
`p` lies in the forced border region (`p < k` or `n ≤ p + k`, everything
when `k = 0`); consequently any output position `p` whose input support
`[p+k+1-ws, p+k]` (which is `[p-k, p+k]` for odd `ws`) contains a missing
input position is masked — instantiating the support membership at a single
missing input position `i` gives the missing run `[i-k, i+ws-1-k] ∩ [0,n)`,
which equals the claimed `[i-k, i+k] ∩ [0,n)` only for odd `ws`. -/
theorem running_window_missing_propagation (s : MaskedSeries)
    (window : List ℚ) (ws : Nat)
    (hm : ∀ m, s.mask = some m → m.length = s.data.length)
    (hw : window.length = ws) (h1 : 1 ≤ ws)
    (hpos : ∀ c ∈ window, 0 < c) :
    ∃ M, (runningWindowMS s window ws).mask = some M ∧
      (∀ p, p < s.data.length →
        (M.getD p false = true ↔
          (convMaskSlice (getmaskarray s) window (ws / 2)
              s.data.length).getD p false = true ∨
            ws / 2 = 0 ∨ p < ws / 2 ∨ s.data.length ≤ p + ws / 2)) ∧
      (∀ p t, p < s.data.length → t < s.data.length →
        t ≤ p + ws / 2 → p + ws / 2 < t + ws →
        (getmaskarray s).getD t false = true →
        M.getD p false = true) := by
  have hm0 : (getmaskarray s).length = s.data.length := getmaskarray_length s hm
  have hXlen : (convMaskSlice (getmaskarray s) window (ws / 2)
      s.data.length).length = s.data.length := by
    apply convMaskSlice_length
    rw [hm0, hw]
    omega
  refine ⟨borderAssign (convMaskSlice (getmaskarray s) window (ws / 2)
    s.data.length) (ws / 2), rfl, ?_, ?_⟩
  · intro p hp
    rw [List.getD_eq_getElem _ _ (by rw [borderAssign_length, hXlen]; omega),
      borderAssign_getElem _ _ _ (by rw [borderAssign_length, hXlen]; omega),
      hXlen]
    by_cases hcond : ws / 2 = 0 ∨ p < ws / 2 ∨ s.data.length ≤ p + ws / 2
    · rw [if_pos hcond]
      simp [hcond]
    · rw [if_neg hcond]
      simp [hcond]
  · intro p t hp ht h2 h3 hmt
    have hXp : (convMaskSlice (getmaskarray s) window (ws / 2)
        s.data.length).getD p false = true := by
      rw [List.getD_eq_getElem _ _ (by rw [hXlen]; omega),
        convMaskSlice_getElem _ _ _ _ _ (by rw [hXlen]; omega)]
      rw [decide_eq_true_eq]
      exact convCell_pos (getmaskarray s) window hpos t (ws / 2 + p)
        (by omega) hmt (by omega) (by omega)
    rw [List.getD_eq_getElem _ _ (by rw [borderAssign_length, hXlen]; omega),
      borderAssign_getElem _ _ _ (by rw [borderAssign_length, hXlen]; omega)]
    split
    · rfl
    · exact hXp

theorem running_window_missing_propagation_witness :
    ((∀ m, (⟨[1, 2, 3, 4, 5], some [false, false, true, false, false]⟩ :
        MaskedSeries).mask = some m →
        m.length = ([1, 2, 3, 4, 5] : List ℚ).length) ∧
      (boxcarWindow 3).length = 3 ∧ 1 ≤ 3 ∧
      (∀ c ∈ boxcarWindow 3, (0:ℚ) < c)) ∧
    (∃ M, (runningWindowMS
        ⟨[1, 2, 3, 4, 5], some [false, false, true, false, false]⟩
        (boxcarWindow 3) 3).mask = some M ∧
      (∀ p, p < ([1, 2, 3, 4, 5] : List ℚ).length →
        (M.getD p false = true ↔
          (convMaskSlice
              (getmaskarray ⟨[1, 2, 3, 4, 5],
                some [false, false, true, false, false]⟩)
              (boxcarWindow 3) (3 / 2)
              ([1, 2, 3, 4, 5] : List ℚ).length).getD p false = true ∨
            3 / 2 = 0 ∨ p < 3 / 2 ∨
            ([1, 2, 3, 4, 5] : List ℚ).length ≤ p + 3 / 2)) ∧
      (∀ p t, p < ([1, 2, 3, 4, 5] : List ℚ).length →
        t < ([1, 2, 3, 4, 5] : List ℚ).length →
        t ≤ p + 3 / 2 → p + 3 / 2 < t + 3 →
        (getmaskarray ⟨[1, 2, 3, 4, 5],
          some [false, false, true, false, false]⟩).getD t false = true →
        M.getD p false = true)) :=
  ⟨⟨by intro m hm; cases hm; rfl, by simp [boxcarWindow], by omega,
    by intro c hc; rw [List.eq_of_mem_replicate hc]; norm_num⟩,
   running_window_missing_propagation
    ⟨[1, 2, 3, 4, 5], some [false, false, true, false, false]⟩
    (boxcarWindow 3) 3 (by intro m hm; cases hm; rfl)
    (by simp [boxcarWindow]) (by omega)
    (by intro c hc; rw [List.eq_of_mem_replicate hc]; norm_num)⟩

theorem columnStack_length (a b : List ℚ) (h : a.length = b.length) :
    (columnStack a b).length = a.length := by
  simp [columnStack]
  omega

theorem columnStackB_length (a b : List Bool) (h : a.length = b.length) :
    (columnStackB a b).length = a.length := by
  simp [columnStackB]
  omega

theorem getCol_columnStack_zero (a : List ℚ) :
    ∀ b : List ℚ, a.length = b.length → getCol (columnStack a b) 0 = a := by
  induction a with
  | nil =>
    intro b h
    cases b with
    | nil => rfl
    | cons y b' => simp at h
  | cons x a' ih =>
    intro b h
    cases b with
    | nil => simp at h
    | cons y b' =>
      show x :: getCol (columnStack a' b') 0 = x :: a'
      rw [ih b' (by simpa using h)]

theorem getCol_columnStack_one (a : List ℚ) :
    ∀ b : List ℚ, a.length = b.length → getCol (columnStack a b) 1 = b := by
  induction a with
  | nil =>
    intro b h
    cases b with
    | nil => rfl
    | cons y b' => simp at h
  | cons x a' ih =>
    intro b h
    cases b with
    | nil => simp at h
    | cons y b' =>
      show y :: getCol (columnStack a' b') 1 = y :: b'
      rw [ih b' (by simpa using h)]

theorem getColB_columnStackB_zero (a : List Bool) :
    ∀ b : List Bool, a.length = b.length →
      getColB (columnStackB a b) 0 = a := by
  induction a with
  | nil =>
    intro b h
    cases b with
    | nil => rfl
    | cons y b' => simp at h
  | cons x a' ih =>
    intro b h
    cases b with
    | nil => simp at h
    | cons y b' =>
      show x :: getColB (columnStackB a' b') 0 = x :: a'
      rw [ih b' (by simpa using h)]

theorem getColB_columnStackB_one (a : List Bool) :
    ∀ b : List Bool, a.length = b.length →
      getColB (columnStackB a b) 1 = b := by
  induction a with
  | nil =>
    intro b h
    cases b with
    | nil => rfl
    | cons y b' => simp at h
  | cons x a' ih =>
    intro b h
    cases b with
    | nil => simp at h
    | cons y b' =>
      show y :: getColB (columnStackB a' b') 1 = y :: b'
      rw [ih b' (by simpa using h)]

theorem rowsFromCols_pair (c d : List ℚ) (n : Nat) (hc : c.length = n)
    (hd : d.length = n) :
    rowsFromCols [c, d] n = columnStack c d := by
  apply List.ext_getElem
  · simp [rowsFromCols, columnStack]
    omega
  · intro i h1 h2
    have hi : i < n := by simpa [rowsFromCols] using h1
    simp only [rowsFromCols, List.getElem_map, List.getElem_range,
      List.map_cons, List.map_nil, columnStack, List.getElem_zipWith]
    rw [List.getD_eq_getElem _ _ (by omega), List.getD_eq_getElem _ _ (by omega)]

theorem rowsFromColsB_pair (c d : List Bool) (n : Nat) (hc : c.length = n)
    (hd : d.length = n) :
    rowsFromColsB [c, d] n = columnStackB c d := by
  apply List.ext_getElem
  · simp [rowsFromColsB, columnStackB]
    omega
  · intro i h1 h2
    have hi : i < n := by simpa [rowsFromColsB] using h1
    simp only [rowsFromColsB, List.getElem_map, List.getElem_range,
      List.map_cons, List.map_nil, columnStackB, List.getElem_zipWith]
    rw [List.getD_eq_getElem _ _ (by omega), List.getD_eq_getElem _ _ (by omega)]

theorem borderAssignRows_columnStackB (c d : List Bool) (k : Nat)
    (h : c.length = d.length) :
    borderAssignRows (columnStackB c d) k =
      columnStackB (borderAssign c k) (borderAssign d k) := by
  apply List.ext_getElem
  · simp [borderAssignRows, columnStackB, borderAssign_length]
  · intro i h1 h2
    have hi : i < c.length := by
      simpa [borderAssignRows_length, columnStackB_length c d h] using h1
    have hcs : (columnStackB c d).length = c.length := columnStackB_length c d h
    rw [borderAssignRows_getElem _ _ _ (by rw [borderAssignRows_length]; omega)]
    rw [List.getD_eq_getElem _ _ (by omega)]
    simp only [columnStackB, List.getElem_zipWith]
    rw [borderAssign_getElem c k i (by rw [borderAssign_length]; omega),
      borderAssign_getElem d k i (by rw [borderAssign_length]; omega),
      List.length_zipWith]
    have e1 : (k = 0 ∨ i < k ∨ c.length ⊓ d.length ≤ i + k) ↔
        (k = 0 ∨ i < k ∨ c.length ≤ i + k) := by omega
    have e2 : (k = 0 ∨ i < k ∨ d.length ≤ i + k) ↔
        (k = 0 ∨ i < k ∨ c.length ≤ i + k) := by omega
    by_cases hcond : k = 0 ∨ i < k ∨ c.length ≤ i + k
    · rw [if_pos (e1.mpr hcond), if_pos hcond, if_pos (e2.mpr hcond)]
      rfl
    · rw [if_neg (fun hc => hcond (e1.mp hc)), if_neg hcond,
        if_neg (fun hc => hcond (e2.mp hc)),
        List.getD_eq_getElem _ _ hi, List.getD_eq_getElem _ _ (by omega)]

theorem runningWindow_data_length (s : MaskedSeries) (window : List ℚ)
    (ws : Nat) (hw : window.length = ws) (h1 : 1 ≤ ws) :
    (runningWindowMS s window ws).data.length = s.data.length := by
  simp only [runningWindowMS, List.length_map, List.length_take,
    List.length_drop, fullConv_length, hw]
  omega

/-- C7: rank-2 `running_window` filters each column independently and
identically to the rank-1 path: on the column-stack of two equal-length
rank-1 masked inputs it returns the column-stack of the two rank-1 results,
data and mask alike (the border assignment on whole rows of line 114
coincides with the per-column rank-1 border assignment). -/
theorem running_window_rank2_columnwise (a b : List ℚ) (ma mb : List Bool)
    (window : List ℚ) (ws : Nat)
    (hab : a.length = b.length) (hma : ma.length = a.length)
    (hmb : mb.length = b.length) (hw : window.length = ws) (h1 : 1 ≤ ws) :
    runningWindowMS2 ⟨columnStack a b, some (columnStackB ma mb)⟩ window ws =
      ⟨columnStack (runningWindowMS ⟨a, some ma⟩ window ws).data
          (runningWindowMS ⟨b, some mb⟩ window ws).data,
        some (columnStackB
          (getmaskarray (runningWindowMS ⟨a, some ma⟩ window ws))
          (getmaskarray (runningWindowMS ⟨b, some mb⟩ window ws)))⟩ := by
  cases a with
  | nil =>
    cases b with
    | cons y b' => simp at hab
    | nil =>
      have hma0 : ma = [] := List.length_eq_zero.1 (by simpa using hma)
      have hmb0 : mb = [] := List.length_eq_zero.1 (by simpa using hmb)
      subst hma0
      subst hmb0
      rfl
  | cons x a' =>
    cases b with
    | nil => simp at hab
    | cons y b' =>
      have hn : (columnStack (x :: a') (y :: b')).length = (x :: a').length :=
        columnStack_length _ _ hab
      have hXa : (convMaskSlice ma window (ws / 2)
          (x :: a').length).length = (x :: a').length := by
        apply convMaskSlice_length
        rw [hma, hw]
        omega
      have hXb : (convMaskSlice mb window (ws / 2)
          (x :: a').length).length = (x :: a').length := by
        apply convMaskSlice_length
        rw [hmb, ← hab, hw]
        omega
      simp only [runningWindowMS2, runningWindowMS, getmaskarray,
        getmaskarray2]
      rw [hn]
      rw [show ((columnStack (x :: a') (y :: b')).getD 0 []).length = 2
        from rfl]
      rw [show List.range 2 = [0, 1] from rfl]
      simp only [List.map_cons, List.map_nil]
      rw [getCol_columnStack_zero _ _ hab, getCol_columnStack_one _ _ hab,
        getColB_columnStackB_zero ma mb (by omega),
        getColB_columnStackB_one ma mb (by omega)]
      rw [rowsFromCols_pair _ _ _
          (by
            simp only [List.length_map, List.length_take, List.length_drop,
              fullConv_length, hw]
            omega)
          (by
            simp only [List.length_map, List.length_take, List.length_drop,
              fullConv_length, hw]
            have := hab
            simp only [List.length_cons] at this ⊢
            omega),
        rowsFromColsB_pair _ _ _ hXa hXb,
        borderAssignRows_columnStackB _ _ _ (by rw [hXa, hXb]),
        show (y :: b').length = (x :: a').length from hab.symm]

theorem running_window_rank2_columnwise_witness :
    (([1, 2, 3] : List ℚ).length = ([4, 5, 6] : List ℚ).length ∧
      ([false, true, false] : List Bool).length = ([1, 2, 3] : List ℚ).length ∧
      ([false, false, false] : List Bool).length = ([4, 5, 6] : List ℚ).length ∧
      (boxcarWindow 3).length = 3 ∧ 1 ≤ 3) ∧
    runningWindowMS2 ⟨columnStack [1, 2, 3] [4, 5, 6],
        some (columnStackB [false, true, false] [false, false, false])⟩
        (boxcarWindow 3) 3 =
      ⟨columnStack
          (runningWindowMS ⟨[1, 2, 3], some [false, true, false]⟩
            (boxcarWindow 3) 3).data
          (runningWindowMS ⟨[4, 5, 6], some [false, false, false]⟩
            (boxcarWindow 3) 3).data,
        some (columnStackB
          (getmaskarray (runningWindowMS ⟨[1, 2, 3], some [false, true, false]⟩
            (boxcarWindow 3) 3))
          (getmaskarray (runningWindowMS ⟨[4, 5, 6],
            some [false, false, false]⟩ (boxcarWindow 3) 3)))⟩ :=
  ⟨⟨rfl, rfl, rfl, by simp [boxcarWindow], by omega⟩,
    running_window_rank2_columnwise [1, 2, 3] [4, 5, 6]
      [false, true, false] [false, false, false] (boxcarWindow 3) 3
      rfl rfl rfl (by simp [boxcarWindow]) (by omega)⟩
